import Mathlib

/-
Shallow embedding of the weighted-statistics core of the repository
(code/data_clean.py): the weighted quantile estimator built on numpy
argsort/cumsum/interp, the weighted mean/aggregate/median helpers (both the
sequence-level and the dataframe-level versions), the pandas-cut based bin
assignment with its duplicate-edge handling, and the per-wave pipeline that
computes quantile boundaries on the full population and then filters the
debtor subpopulation.

Real arithmetic is modelled by the rationals.  A float result that is not a
finite number (the NaN and infinities produced by dividing by a zero total
weight) is modelled by `Option.none` / `Except.error`, and the sort used by
np.argsort is modelled by a stable comparison sort on (value, weight) pairs;
the quantile estimator is insensitive to how argsort orders tied values, so
this is faithful.
-/

namespace SCF

/-- Comparison used to sort (value, weight) pairs by value: models np.argsort
of the data followed by fancy-indexing of the weights with the same
permutation, as in the source function quantile. -/
def leFst (a b : ℚ × ℚ) : Prop := a.1 ≤ b.1

instance : DecidableRel leFst := fun a b => inferInstanceAs (Decidable (a.1 ≤ b.1))

instance : IsTotal (ℚ × ℚ) leFst := ⟨fun a b => le_total a.1 b.1⟩

instance : IsTrans (ℚ × ℚ) leFst := ⟨fun _ _ _ h1 h2 => le_trans h1 h2⟩

/-- np.cumsum on a list of rationals. -/
def cumsum : List ℚ → List ℚ
  | [] => []
  | a :: l => a :: (cumsum l).map (a + ·)

/-- Number of elements in the longest prefix of xp that are ≤ x.  For a
nondecreasing xp this is exactly the index returned by numpy binary search
(bisect-right) used by np.interp, plus one. -/
def countLe (x : ℚ) (xp : List ℚ) : ℕ :=
  (xp.takeWhile (fun a => decide (a ≤ x))).length

/-- Number of elements in the longest prefix of the list that are < x.  For a
nondecreasing bins list this is np.searchsorted(bins, x, side=left), the index
computation used by pandas cut. -/
def bisectLeft (x : ℚ) (bins : List ℚ) : ℕ :=
  (bins.takeWhile (fun a => decide (a < x))).length

/-- np.interp(x, xp, fp): one-dimensional linear interpolation, following the
branch structure of arr_interp in numpy (compiled_base.c) for a nondecreasing
xp: clamp outside the range of xp, return fp[j] exactly when x hits xp[j]
(at the last such j), otherwise interpolate linearly on the enclosing cell. -/
def interp (x : ℚ) (xp fp : List ℚ) : ℚ :=
  if xp.getLastD 0 < x then fp.getLastD 0
  else if x < xp.headD 0 then fp.headD 0
  else
    let j := countLe x xp - 1
    if j = xp.length - 1 then fp.getLastD 0
    else if xp.getD j 0 = x then fp.getD j 0
    else
      (fp.getD (j + 1) 0 - fp.getD j 0) / (xp.getD (j + 1) 0 - xp.getD j 0) *
        (x - xp.getD j 0) + fp.getD j 0

/-- The (value, weight) pairs sorted by value: data[ind_sorted] paired with
weights[ind_sorted] for ind_sorted = np.argsort(data). -/
def sortedPairs (data weights : List ℚ) : List (ℚ × ℚ) :=
  List.insertionSort leFst (data.zip weights)

/-- data[ind_sorted] in the source function quantile. -/
def dataSorted (data weights : List ℚ) : List ℚ :=
  (sortedPairs data weights).map Prod.fst

/-- sorted_weights = weights[ind_sorted] in the source function quantile. -/
def wSorted (data weights : List ℚ) : List ℚ :=
  (sortedPairs data weights).map Prod.snd

/-- Sn = np.cumsum(sorted_weights) in the source function quantile. -/
def Sn (data weights : List ℚ) : List ℚ :=
  cumsum (wSorted data weights)

/-- Pn = Sn/Sn[-1] in the source function quantile. -/
def Pn (data weights : List ℚ) : List ℚ :=
  (Sn data weights).map (fun s => s / (Sn data weights).getLastD 0)

/-- The source function quantile(data, weights, quantile): sort the data,
carry the weights along, normalize the cumulative weights and linearly
interpolate the requested probability with np.interp. -/
def quantile (data weights : List ℚ) (q : ℚ) : ℚ :=
  interp q (Pn data weights) (dataSorted data weights)

/-- The source function weight_mean: np.sum(data*weights)/np.sum(weights).
When the total weight is zero the float division yields a non-finite value
(NaN or an infinity), modelled here as none. -/
def weight_mean (data weights : List ℚ) : Option ℚ :=
  if weights.sum = 0 then none
  else some ((List.zipWith (· * ·) data weights).sum / weights.sum)

/-- The source function weight_agg: np.sum(data*weights). -/
def weight_agg (data weights : List ℚ) : ℚ :=
  (List.zipWith (· * ·) data weights).sum

/-- The source function weight_median: quantile(data, weights, 0.5). -/
def weight_median (data weights : List ℚ) : ℚ :=
  quantile data weights (1 / 2)

/-- A dataframe as consumed by the df-level estimators: the selected numeric
column df[var] and the weight column df[wgt]. -/
structure DF where
  col : List ℚ
  wgt : List ℚ

/-- The source function weight_mean_df: np.sum(df[var]*df[wgt])/np.sum(df[wgt]),
with the same non-finite-result convention as weight_mean. -/
def weight_mean_df (df : DF) : Option ℚ :=
  if df.wgt.sum = 0 then none
  else some ((List.zipWith (· * ·) df.col df.wgt).sum / df.wgt.sum)

/-- The source function weight_agg_df: np.sum(df[var]*df[wgt]). -/
def weight_agg_df (df : DF) : ℚ :=
  (List.zipWith (· * ·) df.col df.wgt).sum

/-- The source function weight_median_df: quantile(df[var], df[wgt], 0.5). -/
def weight_median_df (df : DF) : ℚ :=
  quantile df.col df.wgt (1 / 2)

instance {ε α : Type} [DecidableEq ε] [DecidableEq α] : DecidableEq (Except ε α) :=
  fun a b =>
    match a, b with
    | .error e, .error f =>
        decidable_of_iff (e = f) ⟨fun h => by rw [h], fun h => by cases h; rfl⟩
    | .ok x, .ok y =>
        decidable_of_iff (x = y) ⟨fun h => by rw [h], fun h => by cases h; rfl⟩
    | .error _, .ok _ => isFalse fun h => Except.noConfusion h
    | .ok _, .error _ => isFalse fun h => Except.noConfusion h

/-- The pandas monotonicity check on explicit bin edges: true when no adjacent
difference is negative, i.e. not (np.diff(bins) < 0).any(). -/
def monotoneEdges : List ℚ → Bool
  | [] => true
  | [_] => true
  | a :: b :: l => decide (a ≤ b) && monotoneEdges (b :: l)

/-- np.unique of a list that has already passed the pandas monotonicity check:
collapse adjacent duplicates. -/
def uniqueSorted : List ℚ → List ℚ
  | [] => []
  | [a] => [a]
  | a :: b :: l => if a = b then uniqueSorted (b :: l) else a :: uniqueSorted (b :: l)

/-- The per-value index-and-label computation of pandas cut with
include_lowest=True and labels=range(len(bins)-1): ids is the side=left
searchsorted index, patched to 1 when the value equals the lowest edge; ids
of 0 or len(bins) mean the value is outside every bin and yield a missing
label (NaN, modelled none); otherwise the label is ids-1. -/
def cutLabel (bins : List ℚ) (x : ℚ) : Option ℕ :=
  let i := bisectLeft x bins
  let ids := if x = bins.headD 0 then 1 else i
  if ids = 0 ∨ ids = bins.length then none else some (ids - 1)

/-- pandas pd.cut(xs, bins=qctiles, labels=range(labelCount),
include_lowest=True, duplicates=...): check the edges are monotone, collapse
duplicate edges when duplicates=drop (raising when duplicates=raise), raise
when the explicit label list does not have exactly one fewer entry than the
(possibly collapsed) edge list, and otherwise label every value. -/
def pdCut (xs : List ℚ) (qctiles : List ℚ) (labelCount : ℕ) (dropDup : Bool) :
    Except String (List (Option ℕ)) :=
  if ¬ monotoneEdges qctiles then .error "bins must increase monotonically."
  else if (uniqueSorted qctiles).length < qctiles.length ∧ qctiles.length ≠ 2 then
    if dropDup then
      if labelCount ≠ (uniqueSorted qctiles).length - 1 then
        .error "Bin labels must be one fewer than the number of bin edges"
      else .ok (xs.map (cutLabel (uniqueSorted qctiles)))
    else .error "Bin edges must be unique"
  else
    if labelCount ≠ qctiles.length - 1 then
      .error "Bin labels must be one fewer than the number of bin edges"
    else .ok (xs.map (cutLabel qctiles))

/-- The source helper cut(df, var, qctiles): pd.cut with
labels=range(len(qctiles)-1), include_lowest=True and duplicates=drop. -/
def cut (values : List ℚ) (qctiles : List ℚ) : Except String (List (Option ℕ)) :=
  pdCut values qctiles (qctiles.length - 1) true

/-- The direct pd.cut call on line 427 of data_clean.py: identical to the
helper cut except that the duplicates argument is left at its default raise. -/
def cutNoDrop (values : List ℚ) (qctiles : List ℚ) : Except String (List (Option ℕ)) :=
  pdCut values qctiles (qctiles.length - 1) false

/-- qctiles = np.array([quantile(values, weights, j/num) for j in range(num+1)]),
the boundary construction on lines 426 and 428 of data_clean.py. -/
def qctilesOf (values weights : List ℚ) (num : ℕ) : List ℚ :=
  (List.range (num + 1)).map
    (fun j : ℕ => quantile values weights ((j : ℚ) / (num : ℚ)))

/-- One respondent record of a wave, restricted to the fields the partition
pipeline touches: the partition variable (e.g. networth), the sample weight
wgt, and the conditioning variable student_debt. -/
structure Row where
  value : ℚ
  wgt : ℚ
  student_debt : ℚ
deriving DecidableEq, Repr

/-- Lines 423-429 of data_clean.py for one wave, one partition variable and
one bin count: compute the quantile boundaries from the whole population and
attach to every row the bin label obtained by cutting its value with those
boundaries (pd.cut with default duplicates=raise, include_lowest=True). -/
def waveCat (pop : List Row) (num : ℕ) : Except String (List (Row × Option ℕ)) :=
  let qs := qctilesOf (pop.map Row.value) (pop.map Row.wgt) num
  match cutNoDrop (pop.map Row.value) qs with
  | .error e => .error e
  | .ok labels => .ok (pop.zip labels)

/-- Line 459 of data_clean.py: scf_debtors[yr] = scf[yr][scf[yr][student_debt]>0],
a row filter applied after the categorical columns have been attached; every
column of the full dataframe, including the bin labels, is inherited. -/
def scf_debtors (pop : List Row) (num : ℕ) : Except String (List (Row × Option ℕ)) :=
  (waveCat pop num).map (List.filter (fun r => decide (0 < r.1.student_debt)))

/-- Modelled from the spec: the conventional (unweighted) median named by the
testable property on weighted_quantile at probability one half, which is not
itself a function of the repository: middle order statistic for odd length,
average of the two middle order statistics for even length. -/
def unweightedMedian (l : List ℚ) : ℚ :=
  let s := List.insertionSort (· ≤ ·) l
  if l.length % 2 = 1 then s.getD (l.length / 2) 0
  else (s.getD (l.length / 2 - 1) 0 + s.getD (l.length / 2) 0) / 2

/- ### Basic list lemmas -/

theorem headD_eq_getD (l : List ℚ) : l.headD 0 = l.getD 0 0 := by
  cases l <;> rfl

theorem getLastD_eq_getD (l : List ℚ) (d : ℚ) : l.getLastD d = l.getD (l.length - 1) d := by
  rw [List.getLastD_eq_getLast?, List.getLast?_eq_getElem?, List.getD_eq_getElem?_getD]

theorem getD_mem_of_lt {l : List ℚ} {i : ℕ} (h : i < l.length) : l.getD i 0 ∈ l := by
  rw [List.getD_eq_getElem l 0 h]
  exact List.getElem_mem h

theorem sorted_getD_mono {l : List ℚ} (hs : List.Sorted (· ≤ ·) l) {i j : ℕ}
    (hij : i ≤ j) (hj : j < l.length) : l.getD i 0 ≤ l.getD j 0 := by
  rcases Nat.eq_or_lt_of_le hij with h | h
  · rw [h]
  · rw [List.getD_eq_getElem l 0 (lt_trans h hj), List.getD_eq_getElem l 0 hj]
    exact hs.rel_get_of_lt h

theorem sorted_headD_le_mem {l : List ℚ} (hs : List.Sorted (· ≤ ·) l) {a : ℚ}
    (ha : a ∈ l) : l.headD 0 ≤ a := by
  cases l with
  | nil => cases ha
  | cons b t =>
    rcases List.mem_cons.1 ha with h | h
    · exact le_of_eq h.symm
    · exact (List.pairwise_cons.1 hs).1 a h

theorem sorted_mem_le_getLastD {l : List ℚ} (hs : List.Sorted (· ≤ ·) l) {a : ℚ}
    (ha : a ∈ l) : a ≤ l.getLastD 0 := by
  rw [getLastD_eq_getD]
  obtain ⟨i, hi, hgi⟩ := List.getElem_of_mem ha
  rw [← List.getD_eq_getElem l 0 hi] at hgi
  rw [← hgi]
  have hne : l ≠ [] := List.ne_nil_of_mem ha
  have hlen : 0 < l.length := List.length_pos.2 hne
  exact sorted_getD_mono hs (Nat.le_sub_one_of_lt hi) (Nat.sub_lt hlen Nat.one_pos)

theorem sum_pos_of_mem {l : List ℚ} (h0 : ∀ a ∈ l, 0 ≤ a) {a : ℚ} (ha : a ∈ l)
    (hpos : 0 < a) : 0 < l.sum := by
  induction l with
  | nil => cases ha
  | cons b t ih =>
    rw [List.sum_cons]
    rcases List.mem_cons.1 ha with h | h
    · have ht : 0 ≤ t.sum := List.sum_nonneg fun x hx => h0 x (List.mem_cons_of_mem b hx)
      calc (0:ℚ) < a := hpos
        _ = b := h ▸ rfl
        _ ≤ b + t.sum := le_add_of_nonneg_right ht
    · have hb : 0 ≤ b := h0 b (List.mem_cons_self b t)
      have := ih (fun x hx => h0 x (List.mem_cons_of_mem b hx)) h
      linarith

/- ### takeWhile lemmas -/

theorem takeWhile_length_le (p : ℚ → Bool) (l : List ℚ) :
    (l.takeWhile p).length ≤ l.length :=
  (List.takeWhile_prefix p).length_le

theorem takeWhile_getD_sat (p : ℚ → Bool) (l : List ℚ) {i : ℕ}
    (h : i < (l.takeWhile p).length) : p (l.getD i 0) = true := by
  have hl : i < l.length := lt_of_lt_of_le h (takeWhile_length_le p l)
  rw [List.getD_eq_getElem l 0 hl, ← (List.takeWhile_prefix p).getElem h]
  exact List.mem_takeWhile_imp (List.getElem_mem h)

theorem takeWhile_getD_stop (p : ℚ → Bool) (l : List ℚ)
    (h : (l.takeWhile p).length < l.length) :
    p (l.getD (l.takeWhile p).length 0) = false := by
  induction l with
  | nil => simp at h
  | cons a t ih =>
    by_cases hpa : p a
    · rw [List.takeWhile_cons, if_pos hpa] at h ⊢
      simp only [List.length_cons, Nat.add_lt_add_iff_right] at h
      simpa using ih h
    · rw [List.takeWhile_cons, if_neg hpa]
      simpa using hpa

theorem takeWhile_length_mono {p q : ℚ → Bool} (l : List ℚ)
    (h : ∀ a, p a = true → q a = true) :
    (l.takeWhile p).length ≤ (l.takeWhile q).length := by
  induction l with
  | nil => simp
  | cons a t ih =>
    by_cases hpa : p a
    · rw [List.takeWhile_cons, if_pos hpa, List.takeWhile_cons, if_pos (h a hpa)]
      simpa using ih
    · rw [List.takeWhile_cons, if_neg hpa]
      simp

theorem takeWhile_length_eq_of (p : ℚ → Bool) (l : List ℚ) {c : ℕ}
    (hs : List.Sorted (· ≤ ·) l)
    (hmono : ∀ a b : ℚ, a ≤ b → p b = true → p a = true)
    (hc : c ≤ l.length)
    (h1 : 0 < c → p (l.getD (c - 1) 0) = true)
    (h2 : c < l.length → p (l.getD c 0) = false) :
    (l.takeWhile p).length = c := by
  set c0 := (l.takeWhile p).length with hc0
  rcases lt_trichotomy c0 c with h | h | h
  · exfalso
    have hc0l : c0 < l.length := lt_of_lt_of_le h hc
    have hstop := takeWhile_getD_stop p l hc0l
    have hcpos : 0 < c := Nat.pos_of_ne_zero (by omega)
    have hle : l.getD c0 0 ≤ l.getD (c - 1) 0 :=
      sorted_getD_mono hs (by omega) (by omega)
    have := hmono _ _ hle (h1 hcpos)
    rw [hstop] at this
    simp at this
  · exact h
  · exfalso
    have hcl : c < l.length := lt_of_lt_of_le h (takeWhile_length_le p l)
    have hsat := takeWhile_getD_sat p l (i := c) h
    have := h2 hcl
    rw [hsat] at this
    simp at this

/- ### countLe lemmas -/

theorem countLe_le_length (x : ℚ) (xp : List ℚ) : countLe x xp ≤ xp.length :=
  takeWhile_length_le _ xp

theorem countLe_getD_le (x : ℚ) (xp : List ℚ) (h : 0 < countLe x xp) :
    xp.getD (countLe x xp - 1) 0 ≤ x := by
  have := takeWhile_getD_sat (fun a => decide (a ≤ x)) xp
    (i := countLe x xp - 1) (by unfold countLe at h ⊢; omega)
  exact of_decide_eq_true this

theorem lt_getD_countLe (x : ℚ) (xp : List ℚ) (h : countLe x xp < xp.length) :
    x < xp.getD (countLe x xp) 0 := by
  have := takeWhile_getD_stop (fun a => decide (a ≤ x)) xp h
  simpa using this

theorem countLe_mono {x x' : ℚ} (hxx : x ≤ x') (xp : List ℚ) :
    countLe x xp ≤ countLe x' xp :=
  takeWhile_length_mono xp (fun a ha => by
    have := of_decide_eq_true ha
    exact decide_eq_true (le_trans this hxx))

theorem countLe_eq_of {x : ℚ} {xp : List ℚ} {c : ℕ} (hs : List.Sorted (· ≤ ·) xp)
    (hc : c ≤ xp.length)
    (h1 : 0 < c → xp.getD (c - 1) 0 ≤ x)
    (h2 : c < xp.length → x < xp.getD c 0) :
    countLe x xp = c := by
  refine takeWhile_length_eq_of _ xp hs ?_ hc ?_ ?_
  · intro a b hab hb
    exact decide_eq_true (le_trans hab (of_decide_eq_true hb))
  · intro h
    exact decide_eq_true (h1 h)
  · intro h
    simpa using not_le.2 (h2 h)

/- ### interp characterization -/

theorem interp_of_countLe_zero {x : ℚ} {xp : List ℚ} (fp : List ℚ) (hs : List.Sorted (· ≤ ·) xp)
    (hn : 0 < xp.length) (h : countLe x xp = 0) : interp x xp fp = fp.headD 0 := by
  have hx0 : x < xp.getD 0 0 := by
    have := lt_getD_countLe x xp (by omega)
    rwa [h] at this
  have h1 : ¬ xp.getLastD 0 < x := by
    rw [getLastD_eq_getD]
    have : xp.getD 0 0 ≤ xp.getD (xp.length - 1) 0 :=
      sorted_getD_mono hs (Nat.zero_le _) (by omega)
    push_neg
    linarith
  have h2 : x < xp.headD 0 := by rwa [headD_eq_getD]
  simp only [interp, if_neg h1, if_pos h2]

theorem interp_of_countLe_len {x : ℚ} {xp : List ℚ} (fp : List ℚ) (hs : List.Sorted (· ≤ ·) xp)
    (hn : 0 < xp.length) (h : countLe x xp = xp.length) :
    interp x xp fp = fp.getLastD 0 := by
  by_cases h1 : xp.getLastD 0 < x
  · simp only [interp, if_pos h1]
  · have hle : xp.getD (xp.length - 1) 0 ≤ x := by
      have := countLe_getD_le x xp (by omega)
      rwa [h] at this
    have h2 : ¬ x < xp.headD 0 := by
      rw [headD_eq_getD]
      have : xp.getD 0 0 ≤ xp.getD (xp.length - 1) 0 :=
        sorted_getD_mono hs (Nat.zero_le _) (by omega)
      push_neg
      linarith
    have h3 : countLe x xp - 1 = xp.length - 1 := by rw [h]
    simp only [interp, if_neg h1, if_neg h2, if_pos h3]

theorem interp_of_countLe_mid {x : ℚ} {xp : List ℚ} (fp : List ℚ) {c : ℕ}
    (hs : List.Sorted (· ≤ ·) xp) (h : countLe x xp = c) (h0 : 0 < c)
    (hcn : c < xp.length) :
    interp x xp fp =
      (fp.getD c 0 - fp.getD (c - 1) 0) / (xp.getD c 0 - xp.getD (c - 1) 0) *
        (x - xp.getD (c - 1) 0) + fp.getD (c - 1) 0 := by
  have hn : 0 < xp.length := lt_of_le_of_lt (Nat.zero_le c) hcn
  have ha : xp.getD (c - 1) 0 ≤ x := by
    have := countLe_getD_le x xp (by omega)
    rwa [h] at this
  have hb : x < xp.getD c 0 := by
    have := lt_getD_countLe x xp (by omega)
    rwa [h] at this
  have h1 : ¬ xp.getLastD 0 < x := by
    rw [getLastD_eq_getD]
    have : xp.getD c 0 ≤ xp.getD (xp.length - 1) 0 :=
      sorted_getD_mono hs (by omega) (by omega)
    push_neg
    linarith
  have h2 : ¬ x < xp.headD 0 := by
    rw [headD_eq_getD]
    have : xp.getD 0 0 ≤ xp.getD (c - 1) 0 :=
      sorted_getD_mono hs (Nat.zero_le _) (by omega)
    push_neg
    linarith
  have h3 : ¬ countLe x xp - 1 = xp.length - 1 := by omega
  have hsucc : countLe x xp - 1 + 1 = c := by omega
  have hpred : countLe x xp - 1 = c - 1 := by omega
  by_cases h4 : xp.getD (countLe x xp - 1) 0 = x
  · simp only [interp, if_neg h1, if_neg h2, if_neg h3, if_pos h4]
    rw [hpred] at h4 ⊢
    rw [h4]
    ring
  · simp only [interp, if_neg h1, if_neg h2, if_neg h3, if_neg h4]
    rw [hsucc, hpred]

/- ### interp bounds and monotonicity -/

theorem interp_mid_bounds {x : ℚ} {xp fp : List ℚ} {c : ℕ}
    (hs : List.Sorted (· ≤ ·) xp) (hf : List.Sorted (· ≤ ·) fp)
    (hlen : fp.length = xp.length) (h : countLe x xp = c) (h0 : 0 < c)
    (hcn : c < xp.length) :
    fp.getD (c - 1) 0 ≤ interp x xp fp ∧ interp x xp fp ≤ fp.getD c 0 := by
  have ha : xp.getD (c - 1) 0 ≤ x := by
    have := countLe_getD_le x xp (by omega)
    rwa [h] at this
  have hb : x < xp.getD c 0 := by
    have := lt_getD_countLe x xp (by omega)
    rwa [h] at this
  have hy : fp.getD (c - 1) 0 ≤ fp.getD c 0 :=
    sorted_getD_mono hf (by omega) (by omega)
  have hab : (0:ℚ) < xp.getD c 0 - xp.getD (c - 1) 0 := by linarith
  rw [interp_of_countLe_mid fp hs h h0 hcn]
  set a := xp.getD (c - 1) 0
  set b := xp.getD c 0
  set y0 := fp.getD (c - 1) 0
  set y1 := fp.getD c 0
  have hslope : (0:ℚ) ≤ (y1 - y0) / (b - a) :=
    div_nonneg (by linarith) (le_of_lt hab)
  constructor
  · have : (0:ℚ) ≤ (y1 - y0) / (b - a) * (x - a) :=
      mul_nonneg hslope (by linarith)
    linarith
  · have hfrac : (y1 - y0) / (b - a) * (x - a) ≤ y1 - y0 := by
      rw [div_mul_eq_mul_div, div_le_iff₀ hab]
      have : x - a ≤ b - a := by linarith
      nlinarith
    linarith

theorem interp_mono {x x' : ℚ} {xp fp : List ℚ}
    (hs : List.Sorted (· ≤ ·) xp) (hf : List.Sorted (· ≤ ·) fp)
    (hlen : fp.length = xp.length) (hn : 0 < xp.length) (hxx : x ≤ x') :
    interp x xp fp ≤ interp x' xp fp := by
  have hcc : countLe x xp ≤ countLe x' xp := countLe_mono hxx xp
  have hc'n : countLe x' xp ≤ xp.length := countLe_le_length x' xp
  have hcn : countLe x xp ≤ xp.length := countLe_le_length x xp
  rcases Nat.eq_zero_or_pos (countLe x' xp) with hc'0 | hc'pos
  · have hc0 : countLe x xp = 0 := by omega
    rw [interp_of_countLe_zero fp hs hn hc0, interp_of_countLe_zero fp hs hn hc'0]
  · rcases Nat.lt_or_ge (countLe x' xp) xp.length with hc'lt | hc'ge
    · -- 0 < countLe x' < n : interp x' is in the cell ending at countLe x'
      have hlow : fp.getD (countLe x' xp - 1) 0 ≤ interp x' xp fp :=
        (interp_mid_bounds (x := x') hs hf hlen rfl hc'pos hc'lt).1
      rcases Nat.eq_zero_or_pos (countLe x xp) with hc0 | hcpos
      · rw [interp_of_countLe_zero fp hs hn hc0, headD_eq_getD]
        calc fp.getD 0 0 ≤ fp.getD (countLe x' xp - 1) 0 :=
              sorted_getD_mono hf (Nat.zero_le _) (by omega)
          _ ≤ interp x' xp fp := hlow
      · rcases Nat.lt_or_ge (countLe x xp) (countLe x' xp) with hclt | hcge
        · -- strictly smaller cell
          have hup : interp x xp fp ≤ fp.getD (countLe x xp) 0 :=
            (interp_mid_bounds (x := x) hs hf hlen rfl hcpos (by omega)).2
          calc interp x xp fp ≤ fp.getD (countLe x xp) 0 := hup
            _ ≤ fp.getD (countLe x' xp - 1) 0 :=
                sorted_getD_mono hf (by omega) (by omega)
            _ ≤ interp x' xp fp := hlow
        · -- same cell : compare the two interpolation formulas directly
          have hceq : countLe x xp = countLe x' xp := by omega
          have ha : xp.getD (countLe x xp - 1) 0 ≤ x :=
            countLe_getD_le x xp (by omega)
          have hb' : x' < xp.getD (countLe x xp) 0 := by
            have := lt_getD_countLe x' xp (by omega)
            rwa [← hceq] at this
          have hy : fp.getD (countLe x xp - 1) 0 ≤ fp.getD (countLe x xp) 0 :=
            sorted_getD_mono hf (by omega) (by omega)
          have hab : (0:ℚ) <
              xp.getD (countLe x xp) 0 - xp.getD (countLe x xp - 1) 0 := by
            have := le_trans ha hxx
            linarith
          rw [interp_of_countLe_mid fp hs rfl hcpos (by omega),
            interp_of_countLe_mid fp hs rfl hc'pos (by omega), ← hceq]
          have hslope : (0:ℚ) ≤
              (fp.getD (countLe x xp) 0 - fp.getD (countLe x xp - 1) 0) /
              (xp.getD (countLe x xp) 0 - xp.getD (countLe x xp - 1) 0) :=
            div_nonneg (by linarith) (le_of_lt hab)
          have := mul_le_mul_of_nonneg_left
            (sub_le_sub_right hxx (xp.getD (countLe x xp - 1) 0)) hslope
          linarith
    · -- countLe x' = n : interp x' is the last value
      have hc'eq : countLe x' xp = xp.length := by omega
      rw [interp_of_countLe_len fp hs hn hc'eq, getLastD_eq_getD]
      rcases Nat.eq_zero_or_pos (countLe x xp) with hc0 | hcpos
      · rw [interp_of_countLe_zero fp hs hn hc0, headD_eq_getD]
        exact sorted_getD_mono hf (Nat.zero_le _) (by omega)
      · rcases Nat.lt_or_ge (countLe x xp) xp.length with hclt | hcge
        · have hup : interp x xp fp ≤ fp.getD (countLe x xp) 0 :=
            (interp_mid_bounds (x := x) hs hf hlen rfl hcpos hclt).2
          calc interp x xp fp ≤ fp.getD (countLe x xp) 0 := hup
            _ ≤ fp.getD (fp.length - 1) 0 :=
                sorted_getD_mono hf (by omega) (by omega)
        · have hceq : countLe x xp = xp.length := by omega
          rw [interp_of_countLe_len fp hs hn hceq, getLastD_eq_getD]

/- ### cumsum lemmas -/

theorem getD_map_lt (f : ℚ → ℚ) (l : List ℚ) {i : ℕ} (h : i < l.length) (d d' : ℚ) :
    (l.map f).getD i d = f (l.getD i d') := by
  rw [List.getD_eq_getElem (l.map f) d (by simpa), List.getD_eq_getElem l d' h,
    List.getElem_map]

theorem cumsum_length (l : List ℚ) : (cumsum l).length = l.length := by
  induction l with
  | nil => rfl
  | cons a t ih => simp [cumsum, ih]

theorem cumsum_nonneg {l : List ℚ} (h : ∀ a ∈ l, 0 ≤ a) : ∀ s ∈ cumsum l, 0 ≤ s := by
  induction l with
  | nil => intro s hs; cases hs
  | cons a t ih =>
    intro s hs
    rw [cumsum] at hs
    have ha := h a (List.mem_cons_self a t)
    rcases List.mem_cons.1 hs with h1 | h1
    · exact h1 ▸ ha
    · obtain ⟨s', hs', rfl⟩ := List.mem_map.1 h1
      have := ih (fun x hx => h x (List.mem_cons_of_mem a hx)) s' hs'
      linarith

theorem cumsum_le_sum {l : List ℚ} (h : ∀ a ∈ l, 0 ≤ a) : ∀ s ∈ cumsum l, s ≤ l.sum := by
  induction l with
  | nil => intro s hs; cases hs
  | cons a t ih =>
    intro s hs
    rw [cumsum] at hs
    have ht : (0:ℚ) ≤ t.sum :=
      List.sum_nonneg fun x hx => h x (List.mem_cons_of_mem a hx)
    rw [List.sum_cons]
    rcases List.mem_cons.1 hs with h1 | h1
    · rw [h1]; linarith
    · obtain ⟨s', hs', rfl⟩ := List.mem_map.1 h1
      have := ih (fun x hx => h x (List.mem_cons_of_mem a hx)) s' hs'
      linarith

theorem cumsum_sorted {l : List ℚ} (h : ∀ a ∈ l, 0 ≤ a) :
    List.Sorted (· ≤ ·) (cumsum l) := by
  induction l with
  | nil => exact List.sorted_nil
  | cons a t ih =>
    rw [cumsum]
    rw [List.sorted_cons]
    constructor
    · intro b hb
      obtain ⟨s', hs', rfl⟩ := List.mem_map.1 hb
      have := cumsum_nonneg (fun x hx => h x (List.mem_cons_of_mem a hx)) s' hs'
      linarith
    · exact List.Pairwise.map _ (fun x y hxy => by simpa using hxy)
        (ih (fun x hx => h x (List.mem_cons_of_mem a hx)))

theorem cumsum_getLastD (l : List ℚ) : (cumsum l).getLastD 0 = l.sum := by
  induction l with
  | nil => rfl
  | cons a t ih =>
    cases t with
    | nil => simp [cumsum]
    | cons b u =>
      rw [cumsum, List.getLastD_cons, List.getLastD_eq_getLast?, List.getLast?_map]
      have hne : cumsum (b :: u) ≠ [] := by
        intro hh
        have := congrArg List.length hh
        rw [cumsum_length] at this
        simp at this
      cases hy : (cumsum (b :: u)).getLast? with
      | none => exact absurd (List.getLast?_eq_none_iff.1 hy) hne
      | some y =>
        have hyv : y = (b :: u).sum := by
          rw [← ih, List.getLastD_eq_getLast?, hy, Option.getD_some]
        simp [hyv, List.sum_cons]

theorem cumsum_getD (l : List ℚ) {i : ℕ} (h : i < l.length) :
    (cumsum l).getD i 0 = (l.take (i + 1)).sum := by
  induction l generalizing i with
  | nil => simp at h
  | cons a t ih =>
    cases i with
    | zero => simp [cumsum]
    | succ k =>
      rw [cumsum, List.getD_cons_succ,
        getD_map_lt _ _ (by rw [cumsum_length]; simpa using h) 0 0,
        ih (by simpa using h)]
      simp [List.sum_cons]

/- ### structure of the quantile internals -/

theorem sortedPairs_perm (data weights : List ℚ) :
    (sortedPairs data weights).Perm (data.zip weights) :=
  List.perm_insertionSort leFst (data.zip weights)

theorem sortedPairs_sorted (data weights : List ℚ) :
    List.Sorted leFst (sortedPairs data weights) :=
  List.sorted_insertionSort leFst (data.zip weights)

theorem dataSorted_sorted (data weights : List ℚ) :
    List.Sorted (· ≤ ·) (dataSorted data weights) :=
  List.Pairwise.map Prod.fst (fun _ _ h => h) (sortedPairs_sorted data weights)

theorem dataSorted_perm {data weights : List ℚ} (hlen : weights.length = data.length) :
    (dataSorted data weights).Perm data := by
  have h1 := (sortedPairs_perm data weights).map Prod.fst
  rwa [List.map_fst_zip data weights (le_of_eq hlen.symm)] at h1

theorem wSorted_perm {data weights : List ℚ} (hlen : weights.length = data.length) :
    (wSorted data weights).Perm weights := by
  have h1 := (sortedPairs_perm data weights).map Prod.snd
  rwa [List.map_snd_zip data weights (le_of_eq hlen)] at h1

theorem wSorted_mem {data weights : List ℚ} {a : ℚ} (h : a ∈ wSorted data weights) :
    a ∈ weights := by
  obtain ⟨p, hp, rfl⟩ := List.mem_map.1 h
  obtain ⟨u, v⟩ := p
  have hz : (u, v) ∈ data.zip weights := (sortedPairs_perm data weights).mem_iff.1 hp
  exact (List.of_mem_zip hz).2

theorem dataSorted_length {data weights : List ℚ} (hlen : weights.length = data.length) :
    (dataSorted data weights).length = data.length :=
  (dataSorted_perm hlen).length_eq

theorem wSorted_length {data weights : List ℚ} (hlen : weights.length = data.length) :
    (wSorted data weights).length = data.length := by
  rw [(wSorted_perm hlen).length_eq, hlen]

theorem Sn_length (data weights : List ℚ) :
    (Sn data weights).length = (wSorted data weights).length :=
  cumsum_length _

theorem Pn_length (data weights : List ℚ) :
    (Pn data weights).length = (Sn data weights).length :=
  List.length_map _ _

theorem Sn_getLastD {data weights : List ℚ} (hlen : weights.length = data.length) :
    (Sn data weights).getLastD 0 = weights.sum := by
  rw [Sn, cumsum_getLastD]
  exact (wSorted_perm hlen).sum_eq

theorem Pn_sorted {data weights : List ℚ} (hw : ∀ a ∈ weights, 0 ≤ a)
    (hlen : weights.length = data.length) (hsum : 0 < weights.sum) :
    List.Sorted (· ≤ ·) (Pn data weights) := by
  have hw' : ∀ a ∈ wSorted data weights, 0 ≤ a := fun a ha => hw a (wSorted_mem ha)
  have hSn : List.Sorted (· ≤ ·) (Sn data weights) := cumsum_sorted hw'
  have hT : (Sn data weights).getLastD 0 = weights.sum := Sn_getLastD hlen
  refine List.Pairwise.map _ (fun a b hab => ?_) hSn
  rw [hT]
  exact div_le_div_of_nonneg_right hab hsum.le

theorem Pn_getD {data weights : List ℚ} (hlen : weights.length = data.length)
    {i : ℕ} (h : i < (Sn data weights).length) :
    (Pn data weights).getD i 0 = (Sn data weights).getD i 0 / weights.sum := by
  rw [Pn, getD_map_lt _ _ h 0 0, Sn_getLastD hlen]

/- ### lengths of the quantile internals -/

theorem Pn_length_data {data weights : List ℚ} (hlen : weights.length = data.length) :
    (Pn data weights).length = data.length := by
  rw [Pn_length, Sn_length, wSorted_length hlen]

theorem dataSorted_length_Pn {data weights : List ℚ}
    (hlen : weights.length = data.length) :
    (dataSorted data weights).length = (Pn data weights).length := by
  rw [Pn_length_data hlen, dataSorted_length hlen]

theorem weights_sum_pos {weights : List ℚ} (hw : ∀ w ∈ weights, 0 ≤ w)
    (hnz : ∃ w ∈ weights, w ≠ 0) : 0 < weights.sum := by
  obtain ⟨w, hwmem, hwne⟩ := hnz
  exact sum_pos_of_mem hw hwmem (lt_of_le_of_ne (hw w hwmem) (Ne.symm hwne))

/-- C2: for a nonempty data sequence with parallel non-negative, not-all-zero
weights, the weighted quantile is monotone non-decreasing in the requested
probability, and consequently every boundary list produced by the qctiles
construction is non-decreasing. -/
theorem quantile_monotone_in_probability {data weights : List ℚ} (hne : data ≠ [])
    (hlen : weights.length = data.length) (hw : ∀ w ∈ weights, 0 ≤ w)
    (hnz : ∃ w ∈ weights, w ≠ 0) :
    (∀ p q : ℚ, p ≤ q → quantile data weights p ≤ quantile data weights q) ∧
    (∀ num : ℕ, List.Chain' (· ≤ ·) (qctilesOf data weights num)) := by
  have hsum : 0 < weights.sum := weights_sum_pos hw hnz
  have hdl : 0 < data.length := List.length_pos.2 hne
  have hmain : ∀ p q : ℚ, p ≤ q → quantile data weights p ≤ quantile data weights q := by
    intro p q hpq
    exact interp_mono (Pn_sorted hw hlen hsum) (dataSorted_sorted data weights)
      (dataSorted_length_Pn hlen) (by rw [Pn_length_data hlen]; exact hdl) hpq
  refine ⟨hmain, fun num => ?_⟩
  rw [List.chain'_iff_get]
  intro i hi
  have hql : (qctilesOf data weights num).length = num + 1 := by
    simp [qctilesOf]
  rw [hql] at hi
  simp only [qctilesOf, List.get_eq_getElem, List.getElem_map, List.getElem_range]
  refine hmain _ _ ?_
  have hnum : (0:ℚ) < (num : ℚ) := by
    have : 0 < num := by omega
    exact_mod_cast this
  have hm' : ((i:ℚ)) ≤ ((i + 1 : ℕ) : ℚ) := by push_cast; linarith
  exact div_le_div_of_nonneg_right hm' hnum.le

/-- C2 witness. -/
theorem quantile_monotone_in_probability_witness :
    quantile [1, 2] [1, 1] 0 ≤ quantile [1, 2] [1, 1] 1 :=
  (quantile_monotone_in_probability (by with_unfolding_all decide)
    (by with_unfolding_all decide) (by with_unfolding_all decide)
    ⟨1, by with_unfolding_all decide, by with_unfolding_all decide⟩).1 0 1
    (by norm_num)

theorem Sn_getD_zero {data weights : List ℚ} (hne : data ≠ [])
    (hlen : weights.length = data.length) :
    (Sn data weights).getD 0 0 = (wSorted data weights).getD 0 0 := by
  have hW : (wSorted data weights).length = data.length := wSorted_length hlen
  cases hw : wSorted data weights with
  | nil =>
      exfalso
      rw [hw] at hW
      have := List.length_pos.2 hne
      simp at hW
      omega
  | cons a t => rw [Sn, hw, cumsum, List.getD_cons_zero, List.getD_cons_zero]

/-- C3 counterexample: with non-negative, not-all-zero weights the quantile
at probability zero need not be the minimum of the values: weights [0, 0, 1]
give quantile 2 while the minimum of [1, 2, 3] is 1. -/
theorem quantile_at_zero_counterexample :
    quantile [1, 2, 3] [0, 0, 1] 0 = 2 ∧
    (1:ℚ) ∈ ([1, 2, 3] : List ℚ) ∧ ∀ a ∈ ([1, 2, 3] : List ℚ), (1:ℚ) ≤ a := by
  refine ⟨by with_unfolding_all decide, by with_unfolding_all decide, ?_⟩
  intro a ha
  fin_cases ha <;> norm_num

/-- C3 amended: when every weight is strictly positive the quantile at
probability zero is the minimum of the values, and already for non-negative,
not-all-zero weights the quantile at probability one is the maximum. -/
theorem quantile_extremes {data weights : List ℚ} (hne : data ≠ [])
    (hlen : weights.length = data.length) :
    ((∀ w ∈ weights, 0 < w) →
      quantile data weights 0 ∈ data ∧ ∀ a ∈ data, quantile data weights 0 ≤ a) ∧
    ((∀ w ∈ weights, 0 ≤ w) → (∃ w ∈ weights, w ≠ 0) →
      quantile data weights 1 ∈ data ∧ ∀ a ∈ data, a ≤ quantile data weights 1) := by
  have hdl : 0 < data.length := List.length_pos.2 hne
  have hPl : (Pn data weights).length = data.length := Pn_length_data hlen
  have hDl : (dataSorted data weights).length = data.length := dataSorted_length hlen
  have hSl : (Sn data weights).length = data.length := by
    rw [Sn_length, wSorted_length hlen]
  constructor
  · intro hpos
    have hw : ∀ w ∈ weights, 0 ≤ w := fun w hwm => (hpos w hwm).le
    have hne' : weights ≠ [] := by
      intro hweq
      rw [hweq] at hlen
      simp at hlen
      omega
    obtain ⟨w0, hw0⟩ := List.exists_mem_of_ne_nil weights hne'
    have hsum : 0 < weights.sum := sum_pos_of_mem hw hw0 (hpos w0 hw0)
    have hPn0 : 0 < (Pn data weights).getD 0 0 := by
      rw [Pn_getD hlen (by omega), Sn_getD_zero hne hlen]
      have hmem : (wSorted data weights).getD 0 0 ∈ wSorted data weights :=
        getD_mem_of_lt (by rw [wSorted_length hlen]; exact hdl)
      exact div_pos (hpos _ (wSorted_mem hmem)) hsum
    have hc : countLe 0 (Pn data weights) = 0 :=
      countLe_eq_of (Pn_sorted hw hlen hsum) (Nat.zero_le _)
        (by intro h; omega) (fun _ => hPn0)
    have hq : quantile data weights 0 = (dataSorted data weights).headD 0 :=
      interp_of_countLe_zero (dataSorted data weights) (Pn_sorted hw hlen hsum)
        (by omega) hc
    have hmem : (dataSorted data weights).headD 0 ∈ dataSorted data weights := by
      rw [headD_eq_getD]
      exact getD_mem_of_lt (by omega)
    refine ⟨hq ▸ (dataSorted_perm hlen).mem_iff.1 hmem, fun a ha => ?_⟩
    rw [hq]
    exact sorted_headD_le_mem (dataSorted_sorted data weights)
      ((dataSorted_perm hlen).mem_iff.2 ha)
  · intro hw hnz
    have hsum : 0 < weights.sum := weights_sum_pos hw hnz
    have hPlast : (Pn data weights).getD ((Pn data weights).length - 1) 0 = 1 := by
      rw [Pn_getD hlen (by omega)]
      have : (Sn data weights).getD ((Pn data weights).length - 1) 0 = weights.sum := by
        rw [← Sn_getLastD hlen, getLastD_eq_getD]
        congr 1
        omega
      rw [this, div_self (ne_of_gt hsum)]
    have hc : countLe 1 (Pn data weights) = (Pn data weights).length :=
      countLe_eq_of (Pn_sorted hw hlen hsum) le_rfl
        (by intro h; rw [hPlast]) (by intro h; omega)
    have hq : quantile data weights 1 = (dataSorted data weights).getLastD 0 :=
      interp_of_countLe_len (dataSorted data weights) (Pn_sorted hw hlen hsum)
        (by omega) hc
    have hmem : (dataSorted data weights).getLastD 0 ∈ dataSorted data weights := by
      rw [getLastD_eq_getD]
      exact getD_mem_of_lt (by omega)
    refine ⟨hq ▸ (dataSorted_perm hlen).mem_iff.1 hmem, fun a ha => ?_⟩
    rw [hq]
    exact sorted_mem_le_getLastD (dataSorted_sorted data weights)
      ((dataSorted_perm hlen).mem_iff.2 ha)

/-- C3 witness. -/
theorem quantile_extremes_witness :
    (quantile [3, 1, 2] [1, 1, 1] 0 ∈ ([3, 1, 2] : List ℚ) ∧
      ∀ a ∈ ([3, 1, 2] : List ℚ), quantile [3, 1, 2] [1, 1, 1] 0 ≤ a) ∧
    (quantile [3, 1, 2] [1, 1, 1] 1 ∈ ([3, 1, 2] : List ℚ) ∧
      ∀ a ∈ ([3, 1, 2] : List ℚ), a ≤ quantile [3, 1, 2] [1, 1, 1] 1) := by
  have h := @quantile_extremes [3, 1, 2] [1, 1, 1] (by with_unfolding_all decide)
    (by with_unfolding_all decide)
  exact ⟨h.1 (by with_unfolding_all decide),
    h.2 (by with_unfolding_all decide)
      ⟨1, by with_unfolding_all decide, by with_unfolding_all decide⟩⟩

/-- C4: a zero total weight makes weight_mean undefined (a non-finite float,
modelled none); in particular it is never a substituted finite number such as
zero. -/
theorem weight_mean_zero_total_weight {data weights : List ℚ}
    (h : weights.sum = 0) :
    weight_mean data weights = none ∧ ∀ q : ℚ, weight_mean data weights ≠ some q := by
  have h1 : weight_mean data weights = none := by rw [weight_mean, if_pos h]
  exact ⟨h1, fun q hq => by rw [h1] at hq; cases hq⟩

/-- C4 witness. -/
theorem weight_mean_zero_total_weight_witness :
    weight_mean [1, 2] [0, 0] = none ∧ ∀ q : ℚ, weight_mean [1, 2] [0, 0] ≠ some q :=
  @weight_mean_zero_total_weight [1, 2] [0, 0] (by with_unfolding_all decide)

/-- C10: the dataframe-level estimators agree definitionally with the
sequence-level estimators applied to the dataframe columns. -/
theorem df_estimators_agree (df : DF) :
    weight_mean_df df = weight_mean df.col df.wgt ∧
    weight_agg_df df = weight_agg df.col df.wgt ∧
    weight_median_df df = weight_median df.col df.wgt :=
  ⟨rfl, rfl, rfl⟩

/- ### bisectLeft and cut lemmas -/

theorem bisectLeft_eq_of {x : ℚ} {bins : List ℚ} {c : ℕ}
    (hs : List.Sorted (· ≤ ·) bins) (hc : c ≤ bins.length)
    (h1 : 0 < c → bins.getD (c - 1) 0 < x)
    (h2 : c < bins.length → x ≤ bins.getD c 0) :
    bisectLeft x bins = c := by
  refine takeWhile_length_eq_of _ bins hs ?_ hc ?_ ?_
  · intro a b hab hb
    exact decide_eq_true (lt_of_le_of_lt hab (of_decide_eq_true hb))
  · intro h
    exact decide_eq_true (h1 h)
  · intro h
    simpa using not_lt.2 (h2 h)

theorem monotoneEdges_of_chain : ∀ {l : List ℚ},
    List.Chain' (· ≤ ·) l → monotoneEdges l = true
  | [], _ => rfl
  | [_], _ => rfl
  | a :: b :: l, h => by
      rw [List.chain'_cons] at h
      rw [monotoneEdges]
      simp only [Bool.and_eq_true, decide_eq_true_eq]
      exact ⟨h.1, monotoneEdges_of_chain h.2⟩

theorem uniqueSorted_of_chain_lt : ∀ {l : List ℚ},
    List.Chain' (· < ·) l → uniqueSorted l = l
  | [], _ => rfl
  | [_], _ => rfl
  | a :: b :: l, h => by
      rw [List.chain'_cons] at h
      rw [uniqueSorted, if_neg (ne_of_lt h.1), uniqueSorted_of_chain_lt h.2]

theorem sorted_le_of_chain_lt {l : List ℚ} (h : List.Chain' (· < ·) l) :
    List.Sorted (· ≤ ·) l :=
  List.chain'_iff_pairwise.1 (h.imp fun _ _ hab => le_of_lt hab)

theorem sorted_lt_of_chain_lt {l : List ℚ} (h : List.Chain' (· < ·) l) :
    List.Sorted (· < ·) l :=
  List.chain'_iff_pairwise.1 h

theorem sorted_getD_strict {l : List ℚ} (hs : List.Sorted (· < ·) l) {i j : ℕ}
    (hij : i < j) (hj : j < l.length) : l.getD i 0 < l.getD j 0 := by
  rw [List.getD_eq_getElem l 0 (lt_trans hij hj), List.getD_eq_getElem l 0 hj]
  exact hs.rel_get_of_lt hij

/-- For strictly increasing edges, the helper cut succeeds and labels every
value with the per-value pandas computation. -/
theorem cut_eq_map_of_chain_lt {bins : List ℚ} (hb : List.Chain' (· < ·) bins)
    (values : List ℚ) : cut values bins = .ok (values.map (cutLabel bins)) := by
  have hmono : monotoneEdges bins = true :=
    monotoneEdges_of_chain (hb.imp fun _ _ hab => le_of_lt hab)
  have huniq : uniqueSorted bins = bins := uniqueSorted_of_chain_lt hb
  rw [cut, pdCut]
  simp [hmono, huniq]

/-- C6 counterexample: a value equal to an interior boundary falls in the bin
BELOW it (right-closed intervals), not in the half-open interval to its right
claimed by the spec: value 1 with boundaries [0, 1, 2] gets label 0, not 1. -/
theorem cut_half_open_counterexample :
    cut [1] [0, 1, 2] = .ok [some 0] ∧ cut [1] [0, 1, 2] ≠ .ok [some 1] := by
  constructor
  · with_unfolding_all decide
  · with_unfolding_all decide

/-- C6 amended: for strictly increasing boundaries, bin assignment realizes
LEFT-open, RIGHT-closed intervals (bins[i], bins[i+1]], with the first bin
additionally closed on the left: a value equal to the minimum boundary lands
in bin 0 and a value equal to the maximum boundary lands in the last bin, so
no extreme value is dropped. -/
theorem cut_interval_semantics {bins : List ℚ} (hb : List.Chain' (· < ·) bins)
    (x : ℚ) :
    (∀ i : ℕ, i + 1 < bins.length → bins.getD i 0 < x → x ≤ bins.getD (i + 1) 0 →
      cut [x] bins = .ok [some i]) ∧
    (2 ≤ bins.length → x = bins.headD 0 → cut [x] bins = .ok [some 0]) ∧
    (2 ≤ bins.length → x = bins.getLastD 0 →
      cut [x] bins = .ok [some (bins.length - 2)]) := by
  have hs : List.Sorted (· ≤ ·) bins := sorted_le_of_chain_lt hb
  have hsl : List.Sorted (· < ·) bins := sorted_lt_of_chain_lt hb
  have hmain : ∀ i : ℕ, i + 1 < bins.length → bins.getD i 0 < x →
      x ≤ bins.getD (i + 1) 0 → cut [x] bins = .ok [some i] := by
    intro i hi1 hlow hhigh
    rw [cut_eq_map_of_chain_lt hb]
    have hxh : ¬ x = bins.headD 0 := by
      rw [headD_eq_getD]
      have : bins.getD 0 0 ≤ bins.getD i 0 :=
        sorted_getD_mono hs (Nat.zero_le i) (by omega)
      exact ne_of_gt (by linarith)
    have hbis : bisectLeft x bins = i + 1 := by
      refine bisectLeft_eq_of hs (by omega) ?_ ?_
      · intro _
        simpa using hlow
      · intro _
        exact hhigh
    have hlab : cutLabel bins x = some i := by
      rw [cutLabel]
      simp only [if_neg hxh, hbis]
      rw [if_neg (by omega)]
      simp
    rw [List.map_singleton, hlab]
  refine ⟨hmain, ?_, ?_⟩
  · intro hlen2 hxh
    rw [cut_eq_map_of_chain_lt hb]
    have hlab : cutLabel bins x = some 0 := by
      rw [cutLabel]
      simp only [if_pos hxh]
      rw [if_neg (by omega)]
    rw [List.map_singleton, hlab]
  · intro hlen2 hxl
    refine hmain (bins.length - 2) (by omega) ?_ ?_
    · rw [hxl, getLastD_eq_getD]
      exact sorted_getD_strict hsl (by omega) (by omega)
    · rw [hxl, getLastD_eq_getD]
      have : bins.length - 2 + 1 = bins.length - 1 := by omega
      rw [this]

/-- C6 witness. -/
theorem cut_interval_semantics_witness :
    cut [(1:ℚ)/2] [0, 1, 2] = .ok [some 0] ∧
    cut [(0:ℚ)] [0, 1, 2] = .ok [some 0] ∧
    cut [(2:ℚ)] [0, 1, 2] = .ok [some 1] := by
  have hb : List.Chain' (· < ·) ([0, 1, 2] : List ℚ) := by
    rw [List.chain'_cons, List.chain'_cons]
    exact ⟨by norm_num, by norm_num, List.chain'_singleton 2⟩
  refine ⟨?_, ?_, ?_⟩
  · exact (cut_interval_semantics hb (1/2)).1 0 (by norm_num)
      (by simp only [List.getD_cons_zero]; norm_num)
      (by simp only [List.getD_cons_succ, List.getD_cons_zero]; norm_num)
  · exact (cut_interval_semantics hb 0).2.1 (by norm_num) (by simp)
  · exact (cut_interval_semantics hb 2).2.2 (by norm_num) (by simp)

/-- C7: a value strictly outside the boundary range receives the missing
label none (the NaN category), never a silently clamped bin label. -/
theorem cut_out_of_range_missing {bins : List ℚ} (hb : List.Chain' (· < ·) bins)
    (hlen2 : 2 ≤ bins.length) {x : ℚ}
    (hx : x < bins.headD 0 ∨ bins.getLastD 0 < x) :
    cut [x] bins = .ok [none] := by
  have hs : List.Sorted (· ≤ ·) bins := sorted_le_of_chain_lt hb
  rw [cut_eq_map_of_chain_lt hb]
  rcases hx with hx | hx
  · have hxh : ¬ x = bins.headD 0 := ne_of_lt hx
    have hbis : bisectLeft x bins = 0 := by
      refine bisectLeft_eq_of hs (Nat.zero_le _) (by omega) ?_
      intro _
      rw [headD_eq_getD] at hx
      exact le_of_lt hx
    have hlab : cutLabel bins x = none := by
      rw [cutLabel]
      simp only [if_neg hxh, hbis]
      simp
    rw [List.map_singleton, hlab]
  · have hhl : bins.headD 0 ≤ bins.getLastD 0 := by
      rw [headD_eq_getD, getLastD_eq_getD]
      exact sorted_getD_mono hs (Nat.zero_le _) (by omega)
    have hxh : ¬ x = bins.headD 0 := ne_of_gt (by linarith)
    have hbis : bisectLeft x bins = bins.length := by
      refine bisectLeft_eq_of hs le_rfl ?_ (by omega)
      intro _
      rw [getLastD_eq_getD] at hx
      exact hx
    have hlab : cutLabel bins x = none := by
      rw [cutLabel]
      simp only [if_neg hxh, hbis]
      simp
    rw [List.map_singleton, hlab]

/-- C7 witness. -/
theorem cut_out_of_range_missing_witness :
    cut [(5:ℚ)] [0, 1] = .ok [none] ∧ cut [(-3:ℚ)] [0, 1] = .ok [none] := by
  have hb : List.Chain' (· < ·) ([0, 1] : List ℚ) := by
    rw [List.chain'_cons]
    exact ⟨by norm_num, List.chain'_singleton 1⟩
  constructor
  · exact cut_out_of_range_missing hb (by norm_num) (Or.inr (by simp))
  · exact cut_out_of_range_missing hb (by norm_num) (Or.inl (by norm_num))

/-- C5: with duplicate adjacent boundaries the helper cut DOES fail: pandas
drops the duplicate edges but the explicit labels list still has
len(qctiles)-1 entries, one too many for the collapsed edges, so pd.cut
raises the label-length ValueError; the direct pd.cut call with the default
duplicates=raise fails as well. -/
theorem cut_duplicate_edges_error :
    cut [0, 1] [0, 0, 1, 2] =
      .error "Bin labels must be one fewer than the number of bin edges" ∧
    cutNoDrop [0, 1] [0, 0, 1, 2] = .error "Bin edges must be unique" := by
  constructor
  · with_unfolding_all decide
  · with_unfolding_all decide

/-- C9 counterexample: on values [10, 20, 30, 40, 50] with unit weights and
five bins, the second boundary is 10 (not approximately 18), and bin
assignment does not return the labels [0, 1, 2, 3, 4] claimed by the spec. -/
theorem concrete_scenario_counterexample :
    (qctilesOf [10, 20, 30, 40, 50] [1, 1, 1, 1, 1] 5).getD 1 0 = 10 ∧
    cut [10, 20, 30, 40, 50] (qctilesOf [10, 20, 30, 40, 50] [1, 1, 1, 1, 1] 5) ≠
      .ok [some 0, some 1, some 2, some 3, some 4] := by
  constructor
  · with_unfolding_all decide
  · with_unfolding_all decide

/-- C9 amended: the boundaries actually computed are [10, 10, 20, 30, 40, 50]
(the interpolated-CDF convention hits the data points and duplicates the
minimum), and cutting the values with these boundaries fails with the pandas
label-length error triggered by the duplicate edge. -/
theorem concrete_scenario_actual :
    qctilesOf [10, 20, 30, 40, 50] [1, 1, 1, 1, 1] 5 = [10, 10, 20, 30, 40, 50] ∧
    cut [10, 20, 30, 40, 50] (qctilesOf [10, 20, 30, 40, 50] [1, 1, 1, 1, 1] 5) =
      .error "Bin labels must be one fewer than the number of bin edges" := by
  constructor
  · with_unfolding_all decide
  · with_unfolding_all decide

/- ### C1: the per-wave pipeline -/

theorem cutNoDrop_ok {values qctiles : List ℚ} {labels : List (Option ℕ)}
    (h : cutNoDrop values qctiles = .ok labels) :
    labels = values.map (cutLabel qctiles) := by
  rw [cutNoDrop, pdCut] at h
  by_cases h1 : monotoneEdges qctiles
  · rw [if_neg (by simpa using h1)] at h
    by_cases h2 : (uniqueSorted qctiles).length < qctiles.length ∧ qctiles.length ≠ 2
    · rw [if_pos h2] at h
      simp at h
    · rw [if_neg h2] at h
      rw [if_neg (by omega)] at h
      exact (Except.ok.inj h).symm
  · rw [if_pos (by simpa using h1)] at h
    cases h

/-- C1: every row of the debtor subpopulation keeps the bin label computed
from the boundary sequence of the FULL population: the filter runs after the
labels are attached, and the label of every row (hence of every debtor row)
is the pandas cut of its value with the full-population qctiles; no boundary
is recomputed from the subpopulation. -/
theorem scf_debtors_use_full_population_boundaries
    (pop : List Row) (num : ℕ) (allRows : List (Row × Option ℕ))
    (h : waveCat pop num = .ok allRows) :
    scf_debtors pop num =
      .ok (allRows.filter (fun r => decide (0 < r.1.student_debt))) ∧
    ∀ r ∈ allRows,
      r.2 = cutLabel (qctilesOf (pop.map Row.value) (pop.map Row.wgt) num)
        r.1.value := by
  constructor
  · rw [scf_debtors, h]
    rfl
  · intro r hr
    rw [waveCat] at h
    cases hcut : cutNoDrop (pop.map Row.value)
        (qctilesOf (pop.map Row.value) (pop.map Row.wgt) num) with
    | error e =>
        rw [hcut] at h
        cases h
    | ok labels =>
        rw [hcut] at h
        have hl : labels = (pop.map Row.value).map
            (cutLabel (qctilesOf (pop.map Row.value) (pop.map Row.wgt) num)) :=
          cutNoDrop_ok hcut
        have hrows : allRows = pop.zip labels := (Except.ok.inj h).symm
        rw [hrows] at hr
        obtain ⟨i, hi, hget⟩ := List.getElem_of_mem hr
        have hip : i < pop.length := by
          rw [List.length_zip] at hi
          omega
        have hil : i < labels.length := by
          rw [List.length_zip] at hi
          omega
        rw [List.getElem_zip] at hget
        rw [← hget]
        simp only [hl]
        rw [List.getElem_map, List.getElem_map]

/-- C1 witness. -/
theorem scf_debtors_use_full_population_boundaries_witness :
    scf_debtors [⟨10, 1, 0⟩, ⟨50, 1, 100⟩] 1 =
      .ok ([(⟨10, 1, 0⟩, some 0), (⟨50, 1, 100⟩, some 0)].filter
        (fun r => decide (0 < r.1.student_debt))) ∧
    ∀ r ∈ ([(⟨10, 1, 0⟩, some 0), (⟨50, 1, 100⟩, some 0)] :
        List (Row × Option ℕ)),
      r.2 = cutLabel (qctilesOf ([⟨10, 1, 0⟩, ⟨50, 1, 100⟩].map Row.value)
        ([⟨10, 1, 0⟩, ⟨50, 1, 100⟩].map Row.wgt) 1) r.1.value :=
  scf_debtors_use_full_population_boundaries [⟨10, 1, 0⟩, ⟨50, 1, 100⟩] 1
    [(⟨10, 1, 0⟩, some 0), (⟨50, 1, 100⟩, some 0)] (by with_unfolding_all decide)

/- ### C8: uniform weights at probability one half -/

theorem wSorted_replicate (data : List ℚ) (w : ℚ) :
    wSorted data (List.replicate data.length w) = List.replicate data.length w := by
  have hlen : (List.replicate data.length w).length = data.length :=
    List.length_replicate _ _
  refine List.eq_replicate_iff.2 ⟨?_, ?_⟩
  · rw [wSorted_length hlen]
  · intro b hb
    exact List.eq_of_mem_replicate (wSorted_mem hb)

theorem replicate_sum (n : ℕ) (w : ℚ) : (List.replicate n w).sum = (n : ℚ) * w := by
  rw [List.sum_replicate, nsmul_eq_mul]

theorem Sn_uniform (data : List ℚ) (w : ℚ) {i : ℕ} (h : i < data.length) :
    (Sn data (List.replicate data.length w)).getD i 0 = ((i + 1 : ℕ) : ℚ) * w := by
  rw [Sn, wSorted_replicate, cumsum_getD _ (by simpa using h), List.take_replicate,
    List.sum_replicate]
  have hmin : min (i + 1) data.length = i + 1 := by omega
  rw [hmin, nsmul_eq_mul]

theorem Pn_uniform (data : List ℚ) (w : ℚ) (hw : 0 < w) {i : ℕ}
    (h : i < data.length) :
    (Pn data (List.replicate data.length w)).getD i 0 =
      ((i + 1 : ℕ) : ℚ) / (data.length : ℚ) := by
  have hlen : (List.replicate data.length w).length = data.length :=
    List.length_replicate _ _
  rw [Pn_getD hlen (by rw [Sn_length, wSorted_length hlen]; exact h),
    Sn_uniform data w h, replicate_sum]
  rw [mul_div_mul_right _ _ (ne_of_gt hw)]

theorem Pn_length_uniform (data : List ℚ) (w : ℚ) :
    (Pn data (List.replicate data.length w)).length = data.length :=
  Pn_length_data (List.length_replicate _ _)

theorem uniform_nonneg (n : ℕ) {w : ℚ} (hw : 0 < w) :
    ∀ a ∈ List.replicate n w, 0 ≤ a :=
  fun _ ha => (List.eq_of_mem_replicate ha) ▸ hw.le

theorem Pn_sorted_uniform (data : List ℚ) {w : ℚ} (hw : 0 < w)
    (hne : data ≠ []) :
    List.Sorted (· ≤ ·) (Pn data (List.replicate data.length w)) := by
  have hdl : 0 < data.length := List.length_pos.2 hne
  refine Pn_sorted (uniform_nonneg data.length hw) (List.length_replicate _ _) ?_
  rw [replicate_sum]
  have : (0:ℚ) < (data.length : ℚ) := by exact_mod_cast hdl
  exact mul_pos this hw

/-- C8 counterexample: with uniform unit weights on [1, 2] the code computes
quantile one half equal to 1, while the conventional unweighted median is
3/2. -/
theorem quantile_half_not_median_counterexample :
    quantile [1, 2] [1, 1] (1/2) = 1 ∧ unweightedMedian [1, 2] = 3/2 ∧
    (1 : ℚ) ≠ 3/2 := by
  refine ⟨?_, ?_, ?_⟩
  · with_unfolding_all decide
  · with_unfolding_all decide
  · with_unfolding_all decide

/-- C8 amended: with uniform positive weights, quantile at one half follows
the interpolated-CDF convention Pn i = (i+1)/n rather than the conventional
median: for even length 2m it returns the lower middle order statistic (index
m-1 of the sorted values), for odd length 2m+1 with m at least 1 the average
of the order statistics at indices m-1 and m, and for a single value that
value; this coincides with the conventional median only in degenerate cases. -/
theorem quantile_half_uniform (data : List ℚ) (w : ℚ) (s : List ℚ)
    (hw : 0 < w) (hperm : s.Perm data) (hsort : List.Sorted (· ≤ ·) s) :
    (∀ m : ℕ, 0 < m → data.length = 2 * m →
      quantile data (List.replicate data.length w) (1/2) = s.getD (m - 1) 0) ∧
    (∀ m : ℕ, 0 < m → data.length = 2 * m + 1 →
      quantile data (List.replicate data.length w) (1/2) =
        (s.getD (m - 1) 0 + s.getD m 0) / 2) ∧
    (data.length = 1 →
      quantile data (List.replicate data.length w) (1/2) = s.getD 0 0) := by
  have hlen : (List.replicate data.length w).length = data.length :=
    List.length_replicate _ _
  have hds : ∀ (hne : data ≠ []),
      dataSorted data (List.replicate data.length w) = s := by
    intro hne
    refine List.eq_of_perm_of_sorted ?_ (dataSorted_sorted _ _) hsort
    exact (dataSorted_perm hlen).trans hperm.symm
  refine ⟨?_, ?_, ?_⟩
  · -- even length 2m
    intro m hm hn
    have hne : data ≠ [] := by
      intro hh
      rw [hh] at hn
      simp at hn
      omega
    have hsp : List.Sorted (· ≤ ·) (Pn data (List.replicate data.length w)) :=
      Pn_sorted_uniform data hw hne
    have hPl : (Pn data (List.replicate data.length w)).length = data.length :=
      Pn_length_uniform data w
    have hnq : (0:ℚ) < (data.length : ℚ) := by
      have : 0 < data.length := by omega
      exact_mod_cast this
    have hhalf : (Pn data (List.replicate data.length w)).getD (m - 1) 0
        = 1/2 := by
      rw [Pn_uniform data w hw (by omega)]
      have h1 : (m - 1 + 1 : ℕ) = m := by omega
      rw [h1, hn]
      have hm0 : ((m:ℕ):ℚ) ≠ 0 := by
        have : 0 < m := hm
        positivity
      push_cast
      field_simp
      ring
    have hc : countLe (1/2) (Pn data (List.replicate data.length w)) = m := by
      refine countLe_eq_of hsp (by omega) ?_ ?_
      · intro _
        rw [hhalf]
      · intro hmlt
        rw [Pn_uniform data w hw (by omega), hn]
        rw [div_lt_div_iff₀ (by norm_num) (by rw [hn] at hnq; exact_mod_cast hnq)] at *
        push_cast
        linarith
    have hmid := interp_of_countLe_mid (dataSorted data
      (List.replicate data.length w)) hsp hc hm (by omega)
    rw [quantile, hmid, hhalf, hds hne]
    ring
  · -- odd length 2m+1
    intro m hm hn
    have hne : data ≠ [] := by
      intro hh
      rw [hh] at hn
      simp at hn
    have hsp : List.Sorted (· ≤ ·) (Pn data (List.replicate data.length w)) :=
      Pn_sorted_uniform data hw hne
    have hPl : (Pn data (List.replicate data.length w)).length = data.length :=
      Pn_length_uniform data w
    have hnq : (0:ℚ) < ((2 * m + 1 : ℕ) : ℚ) := by positivity
    have hlow : (Pn data (List.replicate data.length w)).getD (m - 1) 0 =
        ((m:ℕ):ℚ) / ((2 * m + 1 : ℕ) : ℚ) := by
      rw [Pn_uniform data w hw (by omega)]
      have h1 : (m - 1 + 1 : ℕ) = m := by omega
      rw [h1, hn]
    have hhigh : (Pn data (List.replicate data.length w)).getD m 0 =
        ((m + 1 : ℕ):ℚ) / ((2 * m + 1 : ℕ) : ℚ) := by
      rw [Pn_uniform data w hw (by omega), hn]
    have hc : countLe (1/2) (Pn data (List.replicate data.length w)) = m := by
      refine countLe_eq_of hsp (by omega) ?_ ?_
      · intro _
        rw [hlow, div_le_div_iff₀ hnq (by norm_num)]
        push_cast
        linarith
      · intro _
        rw [hhigh, div_lt_div_iff₀ (by norm_num) hnq]
        push_cast
        linarith
    have hmid := interp_of_countLe_mid (dataSorted data
      (List.replicate data.length w)) hsp hc hm (by omega)
    rw [quantile, hmid, hlow, hhigh, hds hne]
    have hne2 : ((2 * m + 1 : ℕ) : ℚ) ≠ 0 := ne_of_gt hnq
    field_simp
    ring
  · -- single value
    intro hn
    have hne : data ≠ [] := by
      intro hh
      rw [hh] at hn
      simp at hn
    have hsp : List.Sorted (· ≤ ·) (Pn data (List.replicate data.length w)) :=
      Pn_sorted_uniform data hw hne
    have hPl : (Pn data (List.replicate data.length w)).length = data.length :=
      Pn_length_uniform data w
    have hc : countLe (1/2) (Pn data (List.replicate data.length w)) = 0 := by
      refine countLe_eq_of hsp (by omega) (by omega) ?_
      intro _
      rw [Pn_uniform data w hw (by omega), hn]
      norm_num
    have hzero := interp_of_countLe_zero (dataSorted data
      (List.replicate data.length w)) hsp (by omega) hc
    rw [quantile, hzero, hds hne, headD_eq_getD]

/-- C8 witness. -/
theorem quantile_half_uniform_witness :
    quantile [2, 1] (List.replicate 2 1) (1/2) = 1 := by
  have hperm : ([1, 2] : List ℚ).Perm [2, 1] := List.Perm.swap 2 1 []
  have hsort : List.Sorted (· ≤ ·) ([1, 2] : List ℚ) := by
    rw [List.sorted_cons]
    refine ⟨fun b hb => ?_, List.sorted_singleton 2⟩
    fin_cases hb
    norm_num
  have h := (quantile_half_uniform [2, 1] 1 [1, 2] (by norm_num) hperm hsort).1
    1 (by norm_num) (by with_unfolding_all decide)
  simpa using h

end SCF
